import Mathlib

/-!
Verification of the dts-generator declaration bundler (src/index.ts).

The development shallow-embeds the bundler's core components over
`List Char` texts:

* Module-Id Mapper (`filenameToMid`, the module-id computation from
  `writeDeclaration`),
* Tree Rewriter (`processTree`),
* Module Classifier (`isExternalModule`),
* Declaration Emitter (`writeDeclaration`),
* Bundle Assembler loop (`genLoop` / `generateModel`),
* the re-indent regex replacement (`reindent`) and the error
  aggregation (`getError`).

External collaborators (the TypeScript compiler, Node's `path` module,
the glob matcher) are modelled at their interface, as the spec directs.
-/

namespace DtsGen

/-- JS `String.prototype.slice(a, -5)` on a `List Char`:
characters from index `a` up to 5 before the end
(`filename.slice(baseDir.length, -5)` in `writeDeclaration`). -/
def jsSliceNeg5 (a : Nat) (f : List Char) : List Char :=
  (f.take (f.length - 5)).drop a

/-- JS `String.prototype.slice(-5)` on a `List Char`
(`filename.slice(-5)` in the `.d.ts` checks). -/
def jsSliceLast5 (f : List Char) : List Char :=
  f.drop (f.length - 5)

/-- Test `filename.slice(-5) === '.d.ts'` from `generate`/`writeFile`. -/
def isDtsName (f : List Char) : Bool :=
  jsSliceLast5 f == ".d.ts".data

/-- Function `filenameToMid` from src/index.ts lines 22-34: on a platform whose
path separator is `/` it is the identity, otherwise it replaces every
occurrence of the (single-character) separator with `/`.  The platform
separator is passed explicitly as `sep`. -/
def filenameToMid (sep : Char) (filename : List Char) : List Char :=
  if sep = '/' then filename
  else filename.map (fun c => if c = sep then '/' else c)

/-- The module id computed in `writeDeclaration` (src/index.ts line 242):
`options.name + filenameToMid(filename.slice(baseDir.length, -5))`. -/
def sourceModuleId (sep : Char) (name baseDir filename : List Char) : List Char :=
  name ++ filenameToMid sep (jsSliceNeg5 baseDir.length filename)

theorem jsSliceNeg5_of_decomp (baseDir r ext p : List Char)
    (hp : p = baseDir ++ r ++ ext) (hext : ext.length = 5) :
    jsSliceNeg5 baseDir.length p = r := by
  subst hp
  unfold jsSliceNeg5
  have h1 : ((baseDir ++ r) ++ ext).length - 5 = (baseDir ++ r).length := by
    simp [List.length_append, hext]; omega
  rw [h1, List.take_left, List.drop_left]

theorem filenameToMid_sep_free (sep : Char) (hsep : sep ≠ '/') (l : List Char) :
    sep ∉ filenameToMid sep l := by
  unfold filenameToMid
  rw [if_neg hsep]
  intro hmem
  rcases List.mem_map.mp hmem with ⟨c, _, hc⟩
  by_cases h : c = sep
  · rw [if_pos h] at hc; exact hsep hc.symm
  · rw [if_neg h] at hc; exact h hc

theorem sepmap_char_inj (sep : Char) (a b : Char)
    (ha : a ≠ '/') (hb : b ≠ '/')
    (h : (if a = sep then '/' else a) = (if b = sep then '/' else b)) : a = b := by
  by_cases hasep : a = sep <;> by_cases hbsep : b = sep
  · rw [hasep, hbsep]
  · rw [if_pos hasep, if_neg hbsep] at h; exact absurd h.symm hb
  · rw [if_neg hasep, if_pos hbsep] at h; exact absurd h ha
  · rw [if_neg hasep, if_neg hbsep] at h; exact h

theorem sepmap_list_inj (sep : Char) :
    ∀ (l1 l2 : List Char), '/' ∉ l1 → '/' ∉ l2 →
      l1.map (fun c => if c = sep then '/' else c)
        = l2.map (fun c => if c = sep then '/' else c) →
      l1 = l2 := by
  intro l1
  induction l1 with
  | nil =>
    intro l2 _ _ h
    cases l2 with
    | nil => rfl
    | cons b bs => exact absurd h (by simp)
  | cons a as ih =>
    intro l2 h1 h2 h
    cases l2 with
    | nil => exact absurd h (by simp)
    | cons b bs =>
      simp only [List.map_cons, List.cons.injEq] at h
      have ha : a ≠ '/' := fun hh => h1 (by rw [hh]; exact List.mem_cons_self _ _)
      have hb : b ≠ '/' := fun hh => h2 (by rw [hh]; exact List.mem_cons_self _ _)
      have hhd := sepmap_char_inj sep a b ha hb h.1
      have htl := ih bs (fun hh => h1 (List.mem_cons_of_mem _ hh))
        (fun hh => h2 (List.mem_cons_of_mem _ hh)) h.2
      rw [hhd, htl]

theorem filenameToMid_inj (sep : Char) (l1 l2 : List Char)
    (h1 : '/' ∉ l1 ∨ sep = '/') (h2 : '/' ∉ l2 ∨ sep = '/')
    (heq : filenameToMid sep l1 = filenameToMid sep l2) : l1 = l2 := by
  by_cases hs : sep = '/'
  · simpa [filenameToMid, hs] using heq
  · have h1' : '/' ∉ l1 := h1.resolve_right hs
    have h2' : '/' ∉ l2 := h2.resolve_right hs
    simp only [filenameToMid, if_neg hs] at heq
    exact sepmap_list_inj sep l1 l2 h1' h2' heq

/-- C1.  For two distinct input `.d.ts` file paths under `baseDir`, the
module ids computed by `writeDeclaration` (src/index.ts line 242) are
distinct, and — on a platform whose separator is not `/` — the id
contains no platform path separator, provided the package name itself
contains none.  (Determinism is immediate: `sourceModuleId` is a pure
function of its arguments.)  The injectivity hypothesis `hslash`
reflects that on a non-`/` platform a path never contains a literal `/`
character (the platform treats it as a separator). -/
theorem moduleId_inj_no_sep (sep : Char) (name baseDir r1 r2 p1 p2 : List Char)
    (h1 : p1 = baseDir ++ r1 ++ ".d.ts".data)
    (h2 : p2 = baseDir ++ r2 ++ ".d.ts".data)
    (hne : p1 ≠ p2)
    (hslash : sep = '/' ∨ ('/' ∉ r1 ∧ '/' ∉ r2)) :
    sourceModuleId sep name baseDir p1 ≠ sourceModuleId sep name baseDir p2 ∧
      (sep ≠ '/' → sep ∉ name → sep ∉ sourceModuleId sep name baseDir p1) := by
  have e1 : jsSliceNeg5 baseDir.length p1 = r1 :=
    jsSliceNeg5_of_decomp baseDir r1 _ p1 h1 (by rfl)
  have e2 : jsSliceNeg5 baseDir.length p2 = r2 :=
    jsSliceNeg5_of_decomp baseDir r2 _ p2 h2 (by rfl)
  constructor
  · intro hid
    unfold sourceModuleId at hid
    rw [e1, e2] at hid
    have hmid : filenameToMid sep r1 = filenameToMid sep r2 :=
      List.append_cancel_left hid
    have hr : r1 = r2 := by
      refine filenameToMid_inj sep r1 r2 ?_ ?_ hmid
      · rcases hslash with h | h
        · exact Or.inr h
        · exact Or.inl h.1
      · rcases hslash with h | h
        · exact Or.inr h
        · exact Or.inl h.2
    exact hne (by rw [h1, h2, hr])
  · intro hsep hname hmem
    unfold sourceModuleId at hmem
    rw [e1] at hmem
    rcases List.mem_append.mp hmem with h | h
    · exact hname h
    · exact filenameToMid_sep_free sep hsep r1 h

/-- Witness for C1 at a concrete pair of Windows-style paths. -/
theorem moduleId_inj_no_sep_witness :
    ("C:\\base\\a.d.ts".data ≠ "C:\\base\\b.d.ts".data) ∧
      (sourceModuleId '\\' "pkg".data "C:\\base".data "C:\\base\\a.d.ts".data ≠
        sourceModuleId '\\' "pkg".data "C:\\base".data "C:\\base\\b.d.ts".data ∧
      ('\\' ≠ '/' → '\\' ∉ "pkg".data →
        '\\' ∉ sourceModuleId '\\' "pkg".data "C:\\base".data "C:\\base\\a.d.ts".data)) := by
  refine ⟨by decide, ?_⟩
  exact moduleId_inj_no_sep '\\' "pkg".data "C:\\base".data
    "\\a".data "\\b".data "C:\\base\\a.d.ts".data "C:\\base\\b.d.ts".data
    (by decide) (by decide) (by decide) (by decide)

/-- The node kinds the bundler inspects (`ts.SyntaxKind` values used in
src/index.ts), plus a catch-all `other`. -/
inductive SKind : Type where
  | sourceFileKind
  | importEqualsDeclaration
  | importDeclaration
  | exportAssignment
  | exportDeclaration
  | externalModuleReference
  | stringLiteral
  | declareKeyword
  | interfaceDeclaration
  | other
deriving DecidableEq

/-- A parsed syntax node, shallow-embedding the `ts.Node` surface the
bundler touches: `pos` (full start, including leading trivia), `end`
(here `end_`), `kind`, `flags`, the kind of the parent node
(`node.parent.kind`), the kind of `node.moduleReference` (meaningful
for import-equals declarations), the literal text of string-literal
nodes (`node.text`), and the child list traversed by
`ts.forEachChild`. -/
inductive Node : Type where
  | mk : Nat → Nat → SKind → Nat → SKind → SKind → List Char → List Node → Node

def Node.pos : Node → Nat
  | .mk p _ _ _ _ _ _ _ => p

def Node.end_ : Node → Nat
  | .mk _ e _ _ _ _ _ _ => e

def Node.kind : Node → SKind
  | .mk _ _ k _ _ _ _ _ => k

def Node.flags : Node → Nat
  | .mk _ _ _ fl _ _ _ _ => fl

def Node.parentKind : Node → SKind
  | .mk _ _ _ _ pk _ _ _ => pk

def Node.moduleRefKind : Node → SKind
  | .mk _ _ _ _ _ mrk _ _ => mrk

def Node.litText : Node → List Char
  | .mk _ _ _ _ _ _ t _ => t

def Node.children : Node → List Node
  | .mk _ _ _ _ _ _ _ cs => cs

/-- A parsed source file as the bundler sees it: file path, raw text,
and the root syntax node (in TypeScript the source file *is* a node;
its top-level statements are the root's children). -/
structure SourceFile : Type where
  fileName : List Char
  text : List Char
  node : Node

def SourceFile.statements (sf : SourceFile) : List Node :=
  sf.node.children

/-- JS `text.slice(a, b)` on a `List Char` (empty when `b ≤ a`). -/
def sliceL (text : List Char) (a b : Nat) : List Char :=
  (text.drop a).take (b - a)

mutual

/-- One step of `processTree`'s `visit` (src/index.ts lines 76-88),
threading the `(code, cursorPosition)` state: first `readThrough` (copy
`text.slice(cursor, node.pos)` and set the cursor to `node.pos`), then
either append the replacement and `skip` to `node.end`, or recurse into
the children via `ts.forEachChild`. -/
def visit (text : List Char) (replacer : Node → Option (List Char)) :
    Node → List Char × Nat → List Char × Nat
  | .mk p e k fl pk mrk t cs, (code, cursor) =>
    let code1 := code ++ sliceL text cursor p
    match replacer (.mk p e k fl pk mrk t cs) with
    | some r => (code1 ++ r, e)
    | none => visitList text replacer cs (code1, p)

def visitList (text : List Char) (replacer : Node → Option (List Char)) :
    List Node → List Char × Nat → List Char × Nat
  | [], st => st
  | c :: cs, st => visitList text replacer cs (visit text replacer c st)

end

/-- Function `processTree` from src/index.ts lines 63-94: visit the source file's
root node starting from `code = ''`, `cursorPosition = 0`, then append
the remaining text `text.slice(cursorPosition)`. -/
def processTree (sf : SourceFile) (replacer : Node → Option (List Char)) :
    List Char :=
  let st := visit sf.text replacer sf.node ([], 0)
  st.1 ++ sf.text.drop st.2

mutual

/-- All nodes of a subtree in pre-order (the node itself first). -/
def subtreeNodes : Node → List Node
  | .mk p e k fl pk mrk t cs => .mk p e k fl pk mrk t cs :: subtreeNodesL cs

def subtreeNodesL : List Node → List Node
  | [] => []
  | c :: cs => subtreeNodes c ++ subtreeNodesL cs

end

mutual

/-- Well-formedness of a parsed syntax tree, as guaranteed by the
TypeScript parser: a node's full extent `[pos, end]` lies inside the
enclosing bound `[lo, hi]`, and the children returned by `forEachChild`
are in source order, each starting no earlier than the previous one
ended, all inside the parent's extent. -/
def wfB (lo hi : Nat) : Node → Bool
  | .mk p e _ _ _ _ _ cs =>
    decide (lo ≤ p) && decide (p ≤ e) && decide (e ≤ hi) && wfBL p e cs

def wfBL (lo hi : Nat) : List Node → Bool
  | [] => true
  | c :: cs => wfB lo hi c && wfBL c.end_ hi cs

end

theorem sliceL_same (text : List Char) (a : Nat) : sliceL text a a = [] := by
  simp [sliceL]

theorem sliceL_zero (text : List Char) (b : Nat) :
    sliceL text 0 b = text.take b := by
  simp [sliceL]

theorem sliceL_append (text : List Char) {a b c : Nat}
    (hab : a ≤ b) (hbc : b ≤ c) :
    sliceL text a b ++ sliceL text b c = sliceL text a c := by
  unfold sliceL
  have hdrop : text.drop b = (text.drop a).drop (b - a) := by
    rw [List.drop_drop]; congr 1; omega
  have hsum : c - a = (b - a) + (c - b) := by omega
  rw [hdrop, hsum, List.take_add]

theorem sliceL_append_drop (text : List Char) {a b : Nat} (hab : a ≤ b) :
    sliceL text a b ++ text.drop b = text.drop a := by
  unfold sliceL
  have hdrop : text.drop b = (text.drop a).drop (b - a) := by
    rw [List.drop_drop]; congr 1; omega
  rw [hdrop, List.take_append_drop]

theorem wfB_fields (lo hi p e : Nat) (k : SKind) (fl : Nat) (pk mrk : SKind)
    (t : List Char) (cs : List Node)
    (h : wfB lo hi (.mk p e k fl pk mrk t cs) = true) :
    lo ≤ p ∧ p ≤ e ∧ e ≤ hi ∧ wfBL p e cs = true := by
  simp only [wfB, Bool.and_eq_true, decide_eq_true_eq] at h
  exact ⟨h.1.1.1, h.1.1.2, h.1.2, h.2⟩

mutual

theorem wfB_subtree (lo hi : Nat) (n m : Node) (hwf : wfB lo hi n = true)
    (hm : m ∈ subtreeNodes n) :
    n.pos ≤ m.pos ∧ m.pos ≤ m.end_ ∧ m.end_ ≤ n.end_ := by
  cases n with
  | mk p e k fl pk mrk t cs =>
    obtain ⟨h1, h2, h3, h4⟩ := wfB_fields lo hi p e k fl pk mrk t cs hwf
    rw [subtreeNodes] at hm
    rcases List.mem_cons.mp hm with hm | hm
    · subst hm; exact ⟨Nat.le_refl _, h2, Nat.le_refl _⟩
    · have := wfBL_subtree p e cs m h4 hm
      exact ⟨this.1, this.2.1, this.2.2⟩

theorem wfBL_subtree (lo hi : Nat) (cs : List Node) (m : Node)
    (hwf : wfBL lo hi cs = true) (hm : m ∈ subtreeNodesL cs) :
    lo ≤ m.pos ∧ m.pos ≤ m.end_ ∧ m.end_ ≤ hi := by
  cases cs with
  | nil => rw [subtreeNodesL] at hm; exact absurd hm (List.not_mem_nil m)
  | cons c cs' =>
    rw [wfBL, Bool.and_eq_true] at hwf
    rw [subtreeNodesL] at hm
    rcases List.mem_append.mp hm with hm | hm
    · have hb := wfB_subtree lo hi c m hwf.1 hm
      cases c with
      | mk p e k fl pk mrk t ccs =>
        obtain ⟨h1, h2, h3, _⟩ := wfB_fields lo hi p e k fl pk mrk t ccs hwf.1
        refine ⟨Nat.le_trans h1 hb.1, hb.2.1, Nat.le_trans hb.2.2 h3⟩
    · have := wfBL_subtree c.end_ hi cs' m hwf.2 hm
      have hlo : lo ≤ c.end_ := by
        cases c with
        | mk p e k fl pk mrk t ccs =>
          obtain ⟨h1, h2, _, _⟩ := wfB_fields lo hi p e k fl pk mrk t ccs hwf.1
          exact Nat.le_trans h1 h2
      exact ⟨Nat.le_trans hlo this.1, this.2.1, this.2.2⟩

end

theorem wfB_bounds (lo hi : Nat) (n : Node) (h : wfB lo hi n = true) :
    lo ≤ n.pos ∧ n.pos ≤ n.end_ ∧ n.end_ ≤ hi := by
  cases n with
  | mk p e k fl pk mrk t cs =>
    obtain ⟨h1, h2, h3, _⟩ := wfB_fields lo hi p e k fl pk mrk t cs h
    exact ⟨h1, h2, h3⟩

mutual

theorem visit_none (text : List Char) (replacer : Node → Option (List Char))
    (n : Node) (lo hi : Nat) (code : List Char) (cursor : Nat)
    (hwf : wfB lo hi n = true) (hcur : cursor ≤ n.pos)
    (hr : ∀ m ∈ subtreeNodes n, replacer m = none) :
    ∃ c', n.pos ≤ c' ∧ c' ≤ n.end_ ∧
      visit text replacer n (code, cursor) = (code ++ sliceL text cursor c', c') := by
  cases n with
  | mk p e k fl pk mrk t cs =>
    obtain ⟨h1, h2, h3, h4⟩ := wfB_fields lo hi p e k fl pk mrk t cs hwf
    simp only [Node.pos] at hcur
    have hrn : replacer (Node.mk p e k fl pk mrk t cs) = none :=
      hr _ (by rw [subtreeNodes]; exact List.mem_cons_self _ _)
    have hrl : ∀ m ∈ subtreeNodesL cs, replacer m = none := fun m hm =>
      hr m (by rw [subtreeNodes]; exact List.mem_cons_of_mem _ hm)
    obtain ⟨c', hc1, hc2, hc3⟩ := visitList_none text replacer cs p e
      (code ++ sliceL text cursor p) p h4 (Nat.le_refl _) hrl
    refine ⟨c', hc1, ?_, ?_⟩
    · rcases hc2 with h | h
      · exact h
      · rw [h]; exact h2
    · simp only [visit, hrn]
      rw [hc3, List.append_assoc, sliceL_append text hcur hc1]

theorem visitList_none (text : List Char) (replacer : Node → Option (List Char))
    (cs : List Node) (lo hi : Nat) (code : List Char) (cursor : Nat)
    (hwf : wfBL lo hi cs = true) (hcur : cursor ≤ lo)
    (hr : ∀ m ∈ subtreeNodesL cs, replacer m = none) :
    ∃ c', cursor ≤ c' ∧ (c' ≤ hi ∨ c' = cursor) ∧
      visitList text replacer cs (code, cursor)
        = (code ++ sliceL text cursor c', c') := by
  cases cs with
  | nil =>
    exact ⟨cursor, Nat.le_refl _, Or.inr rfl,
      by rw [visitList, sliceL_same, List.append_nil]⟩
  | cons c cs' =>
    rw [wfBL, Bool.and_eq_true] at hwf
    have hrc : ∀ m ∈ subtreeNodes c, replacer m = none := fun m hm =>
      hr m (by rw [subtreeNodesL]; exact List.mem_append_left _ hm)
    have hrl : ∀ m ∈ subtreeNodesL cs', replacer m = none := fun m hm =>
      hr m (by rw [subtreeNodesL]; exact List.mem_append_right _ hm)
    obtain ⟨cb1, cb2, cb3⟩ := wfB_bounds lo hi c hwf.1
    obtain ⟨c1, h11, h12, h13⟩ := visit_none text replacer c lo hi code cursor
      hwf.1 (Nat.le_trans hcur cb1) hrc
    obtain ⟨c2, h21, h22, h23⟩ := visitList_none text replacer cs' c.end_ hi
      (code ++ sliceL text cursor c1) c1 hwf.2 h12 hrl
    have hcc1 : cursor ≤ c1 := Nat.le_trans (Nat.le_trans hcur cb1) h11
    refine ⟨c2, Nat.le_trans hcc1 h21, ?_, ?_⟩
    · rcases h22 with h | h
      · exact Or.inl h
      · exact Or.inl (by rw [h]; exact Nat.le_trans h12 cb3)
    · rw [visitList, h13, h23, List.append_assoc, sliceL_append text hcc1 h21]

end

/-- A replacer that returns the string `R` exactly on nodes whose span
is `[p, e)` and `null` (here `none`) on every other node. -/
def spanReplacer (p e : Nat) (R : List Char) : Node → Option (List Char) :=
  fun n => if n.pos = p ∧ n.end_ = e then some R else none

/-- How many nodes of a list have span `[p, e)`. -/
def spanCount (p e : Nat) (l : List Node) : Nat :=
  l.countP (fun n => decide (n.pos = p) && decide (n.end_ = e))

theorem spanCount_append (p e : Nat) (l1 l2 : List Node) :
    spanCount p e (l1 ++ l2) = spanCount p e l1 + spanCount p e l2 := by
  unfold spanCount; rw [List.countP_append]

theorem spanCount_zero_not (p e : Nat) (l : List Node) (h : spanCount p e l = 0)
    (m : Node) (hm : m ∈ l) : ¬(m.pos = p ∧ m.end_ = e) := by
  intro hsp
  have := List.countP_eq_zero.mp h m hm
  simp only [Bool.and_eq_true, decide_eq_true_eq] at this
  exact this ⟨hsp.1, hsp.2⟩

theorem spanCount_one_ex (p e : Nat) (l : List Node) (h : spanCount p e l = 1) :
    ∃ m ∈ l, m.pos = p ∧ m.end_ = e := by
  have hpos : 0 < l.countP (fun n => decide (n.pos = p) && decide (n.end_ = e)) := by
    unfold spanCount at h; omega
  rcases List.countP_pos_iff.mp hpos with ⟨m, hm, hsp⟩
  simp only [Bool.and_eq_true, decide_eq_true_eq] at hsp
  exact ⟨m, hm, hsp⟩

mutual

theorem visit_one (text : List Char) (replacer : Node → Option (List Char))
    (p e : Nat) (R : List Char) (n : Node) (lo hi : Nat)
    (code : List Char) (cursor : Nat)
    (hwf : wfB lo hi n = true) (hcur : cursor ≤ n.pos)
    (hr : ∀ m ∈ subtreeNodes n, replacer m = spanReplacer p e R m)
    (hcount : spanCount p e (subtreeNodes n) = 1) :
    cursor ≤ p ∧ p ≤ e ∧ ∃ c', e ≤ c' ∧ c' ≤ n.end_ ∧
      visit text replacer n (code, cursor)
        = (code ++ sliceL text cursor p ++ R ++ sliceL text e c', c') := by
  cases n with
  | mk np ne k fl pk mrk t cs =>
    obtain ⟨h1, h2, h3, h4⟩ := wfB_fields lo hi np ne k fl pk mrk t cs hwf
    simp only [Node.pos] at hcur
    simp only [Node.end_]
    have hrn := hr _ (by rw [subtreeNodes]; exact List.mem_cons_self _ _)
    have hrl : ∀ m ∈ subtreeNodesL cs, replacer m = spanReplacer p e R m :=
      fun m hm => hr m (by rw [subtreeNodes]; exact List.mem_cons_of_mem _ hm)
    rw [subtreeNodes] at hcount
    by_cases hn : (Node.mk np ne k fl pk mrk t cs).pos = p ∧
        (Node.mk np ne k fl pk mrk t cs).end_ = e
    · simp only [Node.pos, Node.end_] at hn
      obtain ⟨hnp, hne2⟩ := hn
      subst hnp; subst hne2
      have hsome : replacer (Node.mk np ne k fl pk mrk t cs) = some R := by
        rw [hrn]; unfold spanReplacer
        rw [if_pos ⟨rfl, rfl⟩]
      refine ⟨hcur, h2, ne, Nat.le_refl _, Nat.le_refl _, ?_⟩
      simp only [visit, hsome, sliceL_same, List.append_nil, List.append_assoc]
    · have hnone : replacer (Node.mk np ne k fl pk mrk t cs) = none := by
        rw [hrn]; unfold spanReplacer
        rw [if_neg hn]
      have hcl : spanCount p e (subtreeNodesL cs) = 1 := by
        unfold spanCount at hcount ⊢
        rw [List.countP_cons] at hcount
        have hfalse : (decide ((Node.mk np ne k fl pk mrk t cs).pos = p) &&
            decide ((Node.mk np ne k fl pk mrk t cs).end_ = e)) = false := by
          simp only [Bool.and_eq_false_iff, decide_eq_false_iff_not]
          by_cases hq : (Node.mk np ne k fl pk mrk t cs).pos = p
          · exact Or.inr (fun hq2 => hn ⟨hq, hq2⟩)
          · exact Or.inl hq
        rw [hfalse] at hcount
        simpa using hcount
      obtain ⟨m, hmmem, hmp, hme⟩ := spanCount_one_ex p e _ hcl
      obtain ⟨hb1, hb2, hb3⟩ := wfBL_subtree np ne cs m h4 hmmem
      obtain ⟨k1, k2, c', k3, k4, k5⟩ := visitList_one text replacer p e R cs np ne
        (code ++ sliceL text cursor np) np h4 (Nat.le_refl _) hrl hcl
      refine ⟨Nat.le_trans hcur k1, k2, c', k3, ?_, ?_⟩
      · rcases k4 with h | h
        · exact h
        · rw [h, ← hme]; exact hb3
      · simp only [visit, hnone]
        rw [k5, List.append_assoc code (sliceL text cursor np) (sliceL text np p),
          sliceL_append text hcur k1]

theorem visitList_one (text : List Char) (replacer : Node → Option (List Char))
    (p e : Nat) (R : List Char) (cs : List Node) (lo hi : Nat)
    (code : List Char) (cursor : Nat)
    (hwf : wfBL lo hi cs = true) (hcur : cursor ≤ lo)
    (hr : ∀ m ∈ subtreeNodesL cs, replacer m = spanReplacer p e R m)
    (hcount : spanCount p e (subtreeNodesL cs) = 1) :
    cursor ≤ p ∧ p ≤ e ∧ ∃ c', e ≤ c' ∧ (c' ≤ hi ∨ c' = e) ∧
      visitList text replacer cs (code, cursor)
        = (code ++ sliceL text cursor p ++ R ++ sliceL text e c', c') := by
  cases cs with
  | nil =>
    rw [subtreeNodesL] at hcount
    simp [spanCount] at hcount
  | cons c cs' =>
    rw [wfBL, Bool.and_eq_true] at hwf
    obtain ⟨cb1, cb2, cb3⟩ := wfB_bounds lo hi c hwf.1
    rw [subtreeNodesL] at hr hcount
    have hrc : ∀ m ∈ subtreeNodes c, replacer m = spanReplacer p e R m :=
      fun m hm => hr m (List.mem_append_left _ hm)
    have hrl : ∀ m ∈ subtreeNodesL cs', replacer m = spanReplacer p e R m :=
      fun m hm => hr m (List.mem_append_right _ hm)
    rw [spanCount_append] at hcount
    by_cases hc : spanCount p e (subtreeNodes c) = 1
    · -- the replaced node lies inside `c`; the tail contains none
      have hc' : spanCount p e (subtreeNodesL cs') = 0 := by omega
      obtain ⟨k1, k2, c1, k3, k4, k5⟩ := visit_one text replacer p e R c lo hi
        code cursor hwf.1 (Nat.le_trans hcur cb1) hrc hc
      have hnone : ∀ m ∈ subtreeNodesL cs', replacer m = none := by
        intro m hm
        rw [hrl m hm]; unfold spanReplacer
        rw [if_neg (spanCount_zero_not p e _ hc' m hm)]
      obtain ⟨c2, l1, l2, l3⟩ := visitList_none text replacer cs' c.end_ hi
        (code ++ sliceL text cursor p ++ R ++ sliceL text e c1) c1
        hwf.2 k4 hnone
      refine ⟨k1, k2, c2, Nat.le_trans k3 l1, ?_, ?_⟩
      · rcases l2 with h | h
        · exact Or.inl h
        · exact Or.inl (by rw [h]; exact Nat.le_trans k4 cb3)
      · rw [visitList, k5, l3]
        rw [List.append_assoc (code ++ sliceL text cursor p ++ R)]
        rw [sliceL_append text k3 l1]
    · -- the replaced node lies in the tail; `c` contains none
      have hc0 : spanCount p e (subtreeNodes c) = 0 := by omega
      have hc' : spanCount p e (subtreeNodesL cs') = 1 := by omega
      have hnone : ∀ m ∈ subtreeNodes c, replacer m = none := by
        intro m hm
        rw [hrc m hm]; unfold spanReplacer
        rw [if_neg (spanCount_zero_not p e _ hc0 m hm)]
      obtain ⟨c1, l1, l2, l3⟩ := visit_none text replacer c lo hi code cursor
        hwf.1 (Nat.le_trans hcur cb1) hnone
      obtain ⟨k1, k2, c2, k3, k4, k5⟩ := visitList_one text replacer p e R cs'
        c.end_ hi (code ++ sliceL text cursor c1) c1 hwf.2 l2 hrl hc'
      have hcc1 : cursor ≤ c1 := Nat.le_trans (Nat.le_trans hcur cb1) l1
      refine ⟨Nat.le_trans hcc1 k1, k2, c2, k3, k4, ?_⟩
      rw [visitList, l3, k5,
        List.append_assoc code (sliceL text cursor c1) (sliceL text c1 p),
        sliceL_append text hcc1 k1]

end

/-- C2.  Tree Rewriter no-op identity law: running `processTree` with a
replacer that returns `null` for every node of the syntax tree
reproduces the source text byte-for-byte.  `wfB` is the shallow
embedding of being a parser-produced syntax tree (monotone, nested
`pos`/`end` spans). -/
theorem processTree_noop_identity (sf : SourceFile)
    (replacer : Node → Option (List Char)) (lo hi : Nat)
    (hwf : wfB lo hi sf.node = true)
    (hr : ∀ m ∈ subtreeNodes sf.node, replacer m = none) :
    processTree sf replacer = sf.text := by
  obtain ⟨c', h1, h2, h3⟩ := visit_none sf.text replacer sf.node lo hi [] 0
    hwf (Nat.zero_le _) hr
  show (visit sf.text replacer sf.node ([], 0)).1
      ++ sf.text.drop (visit sf.text replacer sf.node ([], 0)).2 = sf.text
  rw [h3]
  simp only [List.nil_append]
  rw [sliceL_zero]
  exact List.take_append_drop c' sf.text

def sampleSfC2 : SourceFile :=
  ⟨"a.d.ts".data, "abcdef".data,
    .mk 0 6 .sourceFileKind 0 .other .other []
      [.mk 1 4 .other 0 .sourceFileKind .other [] []]⟩

/-- Witness for C2 on a concrete two-node tree. -/
theorem processTree_noop_identity_witness :
    wfB 0 6 sampleSfC2.node = true ∧
      processTree sampleSfC2 (fun _ => none) = sampleSfC2.text := by
  refine ⟨by decide, ?_⟩
  exact processTree_noop_identity sampleSfC2 (fun _ => none) 0 6 (by decide)
    (fun m _ => rfl)

theorem processTree_spanReplacer (sf : SourceFile)
    (replacer : Node → Option (List Char)) (p e : Nat) (R : List Char)
    (lo hi : Nat)
    (hwf : wfB lo hi sf.node = true)
    (hr : ∀ m ∈ subtreeNodes sf.node, replacer m = spanReplacer p e R m)
    (hcount : spanCount p e (subtreeNodes sf.node) = 1) :
    processTree sf replacer = sf.text.take p ++ R ++ sf.text.drop e := by
  obtain ⟨k1, k2, c', k3, k4, k5⟩ := visit_one sf.text replacer p e R sf.node
    lo hi [] 0 hwf (Nat.zero_le _) hr hcount
  show (visit sf.text replacer sf.node ([], 0)).1
      ++ sf.text.drop (visit sf.text replacer sf.node ([], 0)).2 = _
  rw [k5]
  simp only [List.nil_append]
  rw [sliceL_zero,
    List.append_assoc (sf.text.take p ++ R) (sliceL sf.text e c') (sf.text.drop c'),
    sliceL_append_drop sf.text k3]

/-- C3.  Tree Rewriter replacement law: with a replacer that returns the
string `R` exactly for the one node of span `[p, e)` (and `null`
elsewhere), the output is `text[0:p] ++ R ++ text[e:]`, where `p` is
the node's start (`node.pos`, the full start used by `readThrough`) and
`e` its end (`node.end`). -/
theorem processTree_replacement_law (sf : SourceFile)
    (replacer : Node → Option (List Char)) (p e : Nat) (R : List Char)
    (lo hi : Nat)
    (hwf : wfB lo hi sf.node = true)
    (hr : ∀ m ∈ subtreeNodes sf.node, replacer m = spanReplacer p e R m)
    (hcount : spanCount p e (subtreeNodes sf.node) = 1) :
    processTree sf replacer = sf.text.take p ++ R ++ sf.text.drop e :=
  processTree_spanReplacer sf replacer p e R lo hi hwf hr hcount

def sampleSfC3 : SourceFile :=
  ⟨"b.d.ts".data, "abcdef".data,
    .mk 0 6 .sourceFileKind 0 .other .other []
      [.mk 1 4 .other 0 .sourceFileKind .other [] []]⟩

/-- Witness for C3: replacing the span-`[1,4)` node of a concrete tree
by `"XY"`. -/
theorem processTree_replacement_law_witness :
    wfB 0 6 sampleSfC3.node = true ∧
      spanCount 1 4 (subtreeNodes sampleSfC3.node) = 1 ∧
      processTree sampleSfC3 (spanReplacer 1 4 "XY".data)
        = sampleSfC3.text.take 1 ++ "XY".data ++ sampleSfC3.text.drop 4 := by
  refine ⟨by decide, by decide, ?_⟩
  exact processTree_replacement_law sampleSfC3 (spanReplacer 1 4 "XY".data)
    1 4 "XY".data 0 6 (by decide) (fun m _ => rfl) (by decide)

/-- C10.  When the replacer returns a non-null string for the node of
span `[p, e)`, the replacement stands in for the node's whole extent
starting at its *full start* `pos` — which includes the node's leading
trivia — up to `end`.  Formally: the output does not depend on the text
inside `[p, e)` at all (two texts agreeing outside `[p, e)` produce
identical output), so the leading trivia between `pos` and the first
non-trivia character is omitted together with the node's own text. -/
theorem replacement_swallows_leading_trivia (fn1 fn2 text1 text2 : List Char)
    (node : Node) (replacer : Node → Option (List Char)) (p e : Nat)
    (R : List Char) (lo hi : Nat)
    (hwf : wfB lo hi node = true)
    (hr : ∀ m ∈ subtreeNodes node, replacer m = spanReplacer p e R m)
    (hcount : spanCount p e (subtreeNodes node) = 1)
    (hpre : text1.take p = text2.take p)
    (hsuf : text1.drop e = text2.drop e) :
    processTree ⟨fn1, text1, node⟩ replacer
      = processTree ⟨fn2, text2, node⟩ replacer := by
  rw [processTree_spanReplacer ⟨fn1, text1, node⟩ replacer p e R lo hi
    hwf hr hcount]
  rw [processTree_spanReplacer ⟨fn2, text2, node⟩ replacer p e R lo hi
    hwf hr hcount]
  show text1.take p ++ R ++ text1.drop e = text2.take p ++ R ++ text2.drop e
  rw [hpre, hsuf]

def sampleNodeC10 : Node :=
  .mk 0 6 .sourceFileKind 0 .other .other []
    [.mk 1 4 .other 0 .sourceFileKind .other [] []]

/-- Witness for C10: the characters in `[1, 4)` — the replaced node's
leading trivia and text — do not influence the output. -/
theorem replacement_swallows_leading_trivia_witness :
    ("aXYZef".data.take 1 = "aPQRef".data.take 1) ∧
      ("aXYZef".data.drop 4 = "aPQRef".data.drop 4) ∧
      processTree ⟨"c.d.ts".data, "aXYZef".data, sampleNodeC10⟩
          (spanReplacer 1 4 "W".data)
        = processTree ⟨"c.d.ts".data, "aPQRef".data, sampleNodeC10⟩
          (spanReplacer 1 4 "W".data) := by
  refine ⟨by decide, by decide, ?_⟩
  exact replacement_swallows_leading_trivia "c.d.ts".data "c.d.ts".data
    "aXYZef".data "aPQRef".data sampleNodeC10 (spanReplacer 1 4 "W".data)
    1 4 "W".data 0 6 (by decide) (fun m _ => rfl) (by decide)
    (by decide) (by decide)

/-- The global regex replacement from src/index.ts line 269:
`content.replace(nonEmptyLineStart, '$&' + indent)` with
`nonEmptyLineStart = new RegExp(eol + '(?!' + eol + '|$)', 'g')`
(line 99).  The scan moves left to right; at a match (the text starts
with `eol`, and after it comes neither another `eol` nor end-of-input)
the matched `eol` is emitted followed by `indent` and the scan resumes
after the match; otherwise one character is copied and the scan
advances by one. -/
def reindent (eol indent : List Char) : List Char → List Char
  | [] => []
  | c :: s =>
    if h : eol ≠ [] ∧ eol.isPrefixOf (c :: s) = true ∧
        eol.isPrefixOf ((c :: s).drop eol.length) = false ∧
        (c :: s).drop eol.length ≠ []
    then eol ++ indent ++ reindent eol indent ((c :: s).drop eol.length)
    else c :: reindent eol indent s
termination_by l => l.length
decreasing_by
  · have h1 : eol.length ≠ 0 := fun hz => h.1 (List.length_eq_zero.mp hz)
    simp only [List.length_drop, List.length_cons]
    omega
  · simp only [List.length_cons]
    omega

/-- Predicate: `eol` does not overlap itself: no proper nonempty suffix of `eol`
is also a prefix of `eol`.  Holds for the two line terminators the
bundler uses (`"\n"` and `"\r\n"`). -/
def overlapFreeB (eol : List Char) : Bool :=
  (List.range eol.length).all fun k => k == 0 || !((eol.drop k).isPrefixOf eol)

theorem overlapFreeB_spec (eol : List Char) (h : overlapFreeB eol = true)
    (k : Nat) (h1 : 0 < k) (h2 : k < eol.length) :
    (eol.drop k).isPrefixOf eol = false := by
  unfold overlapFreeB at h
  rw [List.all_eq_true] at h
  have hk := h k (List.mem_range.mpr h2)
  simp only [Bool.or_eq_true, beq_iff_eq, Bool.not_eq_true'] at hk
  rcases hk with hk | hk
  · omega
  · exact hk

theorem isPrefixOf_cons_false (eol : List Char) (hne : eol ≠ [])
    (c : Char) (x : List Char) (hc : c ∉ eol) :
    eol.isPrefixOf (c :: x) = false := by
  cases eol with
  | nil => exact absurd rfl hne
  | cons e es =>
    by_contra hcon
    rw [Bool.not_eq_false, List.isPrefixOf_iff_prefix] at hcon
    rcases hcon with ⟨t, ht⟩
    rw [List.cons_append] at ht
    have : e = c := (List.cons.inj ht).1
    exact hc (this ▸ List.mem_cons_self e es)

theorem isPrefixOf_append_self (l r : List Char) :
    l.isPrefixOf (l ++ r) = true :=
  List.isPrefixOf_iff_prefix.mpr (List.prefix_append l r)

theorem reindent_clean (eol indent : List Char) :
    ∀ (l r : List Char), (∀ ch ∈ l, ch ∉ eol) →
      reindent eol indent (l ++ r) = l ++ reindent eol indent r := by
  intro l
  induction l with
  | nil => intro r _; rw [List.nil_append, List.nil_append]
  | cons c l' ih =>
    intro r hl
    have hc : c ∉ eol := hl c (List.mem_cons_self _ _)
    have hcond : ¬(eol ≠ [] ∧ eol.isPrefixOf (c :: (l' ++ r)) = true ∧
        eol.isPrefixOf ((c :: (l' ++ r)).drop eol.length) = false ∧
        (c :: (l' ++ r)).drop eol.length ≠ []) := by
      rintro ⟨h1, h2, _⟩
      rw [isPrefixOf_cons_false eol h1 c _ hc] at h2
      exact Bool.noConfusion h2
    rw [List.cons_append, reindent, dif_neg hcond]
    rw [ih r (fun ch hch => hl ch (List.mem_cons_of_mem _ hch)), List.cons_append]

theorem reindent_suffix_clean (eol indent : List Char)
    (hov : overlapFreeB eol = true) :
    ∀ (s r : List Char), s.length < eol.length → s <:+ eol →
      reindent eol indent (s ++ r) = s ++ reindent eol indent r := by
  intro s
  induction s with
  | nil => intro r _ _; rw [List.nil_append, List.nil_append]
  | cons c s' ih =>
    intro r hlen hsuf
    have hcond : ¬(eol ≠ [] ∧ eol.isPrefixOf (c :: (s' ++ r)) = true ∧
        eol.isPrefixOf ((c :: (s' ++ r)).drop eol.length) = false ∧
        (c :: (s' ++ r)).drop eol.length ≠ []) := by
      rintro ⟨h1, h2, _⟩
      -- a match here would make `c :: s'` both a proper suffix and a
      -- prefix of `eol`, contradicting overlap-freeness
      have hp2 : eol <+: (c :: s') ++ r := by
        rw [List.cons_append]
        exact List.isPrefixOf_iff_prefix.mp h2
      have hpre : (c :: s') <+: eol :=
        List.prefix_of_prefix_length_le (List.prefix_append _ _) hp2
          (Nat.le_of_lt hlen)
      rcases hsuf with ⟨t, ht⟩
      have hdrop : eol.drop t.length = c :: s' := by
        rw [← ht]; exact List.drop_left t (c :: s')
      have hlen' : (c :: s').length < eol.length := hlen
      have htlen : 0 < t.length ∧ t.length < eol.length := by
        have h5 := congrArg List.length ht
        simp only [List.length_append, List.length_cons] at h5 hlen'
        constructor <;> omega
      have hfree := overlapFreeB_spec eol hov t.length htlen.1 htlen.2
      rw [hdrop, List.isPrefixOf_iff_prefix.mpr hpre] at hfree
      exact Bool.noConfusion hfree
    have hs' : s' <:+ eol := by
      rcases hsuf with ⟨t, ht⟩
      exact ⟨t ++ [c], by rw [List.append_assoc]; simpa using ht⟩
    have hlen2 : s'.length < eol.length := by
      simp only [List.length_cons] at hlen; omega
    rw [List.cons_append, reindent, dif_neg hcond]
    rw [ih r hlen2 hs', List.cons_append]

theorem reindent_boundary_not (eol indent r : List Char) (hne : eol ≠ [])
    (hov : overlapFreeB eol = true)
    (hr : eol.isPrefixOf r = true ∨ r = []) :
    reindent eol indent (eol ++ r) = eol ++ reindent eol indent r := by
  cases eol with
  | nil => exact absurd rfl hne
  | cons e es =>
    have hdrop : ((e :: es) ++ r).drop (e :: es).length = r :=
      List.drop_left (e :: es) r
    have hcond : ¬((e :: es) ≠ [] ∧
        (e :: es).isPrefixOf (e :: (es ++ r)) = true ∧
        (e :: es).isPrefixOf ((e :: (es ++ r)).drop (e :: es).length) = false ∧
        (e :: (es ++ r)).drop (e :: es).length ≠ []) := by
      rintro ⟨_, _, h3, h4⟩
      rw [← List.cons_append, hdrop] at h3 h4
      rcases hr with hr | hr
      · rw [hr] at h3; exact Bool.noConfusion h3
      · exact h4 hr
    rw [List.cons_append, reindent, dif_neg hcond]
    have hsuf : es <:+ (e :: es) := ⟨[e], rfl⟩
    rw [reindent_suffix_clean (e :: es) indent hov es r (by simp) hsuf,
      List.cons_append]

theorem reindent_boundary_yes (eol indent r : List Char) (hne : eol ≠ [])
    (h1 : eol.isPrefixOf r = false) (h2 : r ≠ []) :
    reindent eol indent (eol ++ r)
      = eol ++ indent ++ reindent eol indent r := by
  cases eol with
  | nil => exact absurd rfl hne
  | cons e es =>
    have hdrop : ((e :: es) ++ r).drop (e :: es).length = r :=
      List.drop_left (e :: es) r
    have hc2 : (e :: es).isPrefixOf (e :: (es ++ r)) = true := by
      rw [← List.cons_append]; exact isPrefixOf_append_self (e :: es) r
    have hc3 : (e :: es).isPrefixOf ((e :: (es ++ r)).drop (e :: es).length)
        = false := by
      rw [← List.cons_append, hdrop]; exact h1
    have hc4 : (e :: (es ++ r)).drop (e :: es).length ≠ [] := by
      rw [← List.cons_append, hdrop]; exact h2
    rw [List.cons_append, reindent, dif_pos ⟨hne, hc2, hc3, hc4⟩]
    rw [← List.cons_append, hdrop, List.append_assoc]

theorem reindent_nil_eq (eol indent : List Char) : reindent eol indent [] = [] := by
  simp [reindent]

theorem intercalate_cons_eq (sep : List Char) :
    ∀ (a : List Char) (ls : List (List Char)),
      List.intercalate sep (a :: ls) = a ++ (ls.map fun l => sep ++ l).flatten := by
  intro a ls
  induction ls generalizing a with
  | nil => simp [List.intercalate]
  | cons b t ih =>
    have h1 : List.intercalate sep (a :: b :: t)
        = a ++ sep ++ List.intercalate sep (b :: t) := by
      simp [List.intercalate, List.intersperse]
    rw [h1, ih b]
    simp [List.append_assoc]

theorem reindent_tail (eol indent : List Char) (hne : eol ≠ [])
    (hov : overlapFreeB eol = true) :
    ∀ (ls : List (List Char)), (∀ l ∈ ls, ∀ ch ∈ l, ch ∉ eol) →
      reindent eol indent ((ls.map fun l => eol ++ l).flatten)
        = (ls.map fun l => eol ++ (if l = [] then [] else indent) ++ l).flatten := by
  intro ls
  induction ls with
  | nil =>
    intro _
    simp only [List.map_nil, List.flatten_nil]
    exact reindent_nil_eq eol indent
  | cons l ls' ih =>
    intro hcl
    have hcl' : ∀ m ∈ ls', ∀ ch ∈ m, ch ∉ eol :=
      fun m hm => hcl m (List.mem_cons_of_mem _ hm)
    have hclh : ∀ ch ∈ l, ch ∉ eol := hcl l (List.mem_cons_self _ _)
    simp only [List.map_cons, List.flatten_cons]
    cases l with
    | nil =>
      have hr : eol.isPrefixOf ((ls'.map fun m => eol ++ m).flatten) = true ∨
          ((ls'.map fun m => eol ++ m).flatten) = [] := by
        cases ls' with
        | nil => exact Or.inr (by simp)
        | cons l2 t2 =>
          refine Or.inl ?_
          simp only [List.map_cons, List.flatten_cons, List.append_assoc]
          exact isPrefixOf_append_self eol _
      simp only [List.append_nil, eq_self_iff_true, if_true]
      rw [reindent_boundary_not eol indent _ hne hov hr, ih hcl']
    | cons c l' =>
      have hcnot : c ∉ eol := hclh c (List.mem_cons_self _ _)
      rw [if_neg (List.cons_ne_nil c l')]
      rw [List.append_assoc eol (c :: l')]
      rw [reindent_boundary_yes eol indent ((c :: l') ++ _) hne
        (by rw [List.cons_append]
            exact isPrefixOf_cons_false eol hne c _ hcnot)
        (by simp)]
      rw [reindent_clean eol indent (c :: l') _ hclh, ih hcl']
      simp [List.append_assoc]

/-- C8.  The re-indent step (src/index.ts lines 99 and 269): decomposing
the rewritten body into lines separated by `eol`, exactly the line
breaks followed by a nonempty line (i.e. not immediately followed by
another line break or end-of-input) receive one `indent` unit appended
right after them; every other character is unchanged.  `overlapFreeB`
holds for the bundler's line terminators (`"\n"`, `"\r\n"`), and
`hclean` states that the lines contain no line-terminator characters. -/
theorem reindent_law (eol indent l0 : List Char) (ls : List (List Char))
    (hne : eol ≠ []) (hov : overlapFreeB eol = true)
    (hclean : ∀ l ∈ l0 :: ls, ∀ ch ∈ l, ch ∉ eol) :
    reindent eol indent (List.intercalate eol (l0 :: ls))
      = l0 ++ (ls.map fun l => eol ++ (if l = [] then [] else indent) ++ l).flatten := by
  rw [intercalate_cons_eq]
  rw [reindent_clean eol indent l0 _ (hclean l0 (List.mem_cons_self _ _))]
  rw [reindent_tail eol indent hne hov ls
    (fun l hl => hclean l (List.mem_cons_of_mem _ hl))]

/-- Witness for C8: text `"a\n\nb\nc"` (lines `a`, ``, `b`, `c`, LF
terminator).  The breaks before `b` and `c` gain a tab; the break
before the empty line does not. -/
theorem reindent_law_witness :
    ("\n".data ≠ []) ∧ overlapFreeB "\n".data = true ∧
      reindent "\n".data "\t".data
          (List.intercalate "\n".data ["a".data, [], "b".data, "c".data])
        = "a".data ++ (([[], "b".data, "c".data].map
            fun l => "\n".data ++ (if l = [] then [] else "\t".data) ++ l).flatten) := by
  exact ⟨by decide, by decide,
    reindent_law "\n".data "\t".data "a".data [[], "b".data, "c".data]
      (by decide) (by decide) (by decide)⟩

/-- Constant `ts.NodeFlags.Export` (the visibility flag tested at src/index.ts
line 230; value 1 in the TypeScript release the code compiles against,
see the compiled `node.flags & 1` in src/index.js). -/
def nodeFlagsExport : Nat := 1

/-- Function `isExternalModule` from src/index.ts lines 228-238: some top-level
statement carries the export flag, or is an import-equals declaration
whose module reference is an external module reference, or is an import
declaration, an export assignment, or an export declaration.  (In the
source the disjunction is evaluated with JS truthiness: `node.flags &
Export` contributes when nonzero.) -/
def isExternalModule (sf : SourceFile) : Bool :=
  sf.statements.any fun node =>
    ((node.flags &&& nodeFlagsExport) != 0)
    || (node.kind == SKind.importEqualsDeclaration &&
        node.moduleRefKind == SKind.externalModuleReference)
    || node.kind == SKind.importDeclaration
    || node.kind == SKind.exportAssignment
    || node.kind == SKind.exportDeclaration

/-- C4.  `isExternalModule` returns true exactly when some top-level
statement has the export flag, or is an import-equals declaration with
an external module reference, or an import declaration, an export
assignment, or an export declaration; a file with no statements
classifies as not-external.  (Totality — "a boolean with no error
path" — is inherent: the embedding is a total `Bool`-valued
function.) -/
theorem isExternalModule_iff (sf : SourceFile) :
    (isExternalModule sf = true ↔
      ∃ s ∈ sf.statements,
        ((s.flags &&& nodeFlagsExport) ≠ 0 ∨
          (s.kind = SKind.importEqualsDeclaration ∧
            s.moduleRefKind = SKind.externalModuleReference) ∨
          s.kind = SKind.importDeclaration ∨
          s.kind = SKind.exportAssignment ∨
          s.kind = SKind.exportDeclaration)) ∧
      (sf.statements = [] → isExternalModule sf = false) := by
  constructor
  · unfold isExternalModule
    rw [List.any_eq_true]
    constructor
    · rintro ⟨s, hs, hp⟩
      refine ⟨s, hs, ?_⟩
      simpa [Bool.or_eq_true, Bool.and_eq_true, bne_iff_ne, beq_iff_eq,
        or_assoc] using hp
    · rintro ⟨s, hs, hp⟩
      refine ⟨s, hs, ?_⟩
      simpa [Bool.or_eq_true, Bool.and_eq_true, bne_iff_ne, beq_iff_eq,
        or_assoc] using hp
  · intro h
    unfold isExternalModule
    rw [h]
    rfl

/-- Witness for C4: a file with no statements (and one whose single
statement is a plain global interface) classifies as not-external. -/
theorem isExternalModule_iff_witness :
    isExternalModule ⟨"d.d.ts".data, [], .mk 0 0 .sourceFileKind 0 .other .other [] []⟩
      = false :=
  (isExternalModule_iff
    ⟨"d.d.ts".data, [], .mk 0 0 .sourceFileKind 0 .other .other [] []⟩).2 rfl

/-- Model of Node's `path` module (posix flavour), an external
collaborator of the bundler: path components are the `/`-separated
segments. -/
def normStack (acc : List (List Char)) (c : List Char) : List (List Char) :=
  if c = [] ∨ c = ".".data then acc
  else if c = "..".data then acc.dropLast
  else acc ++ [c]

/-- Model of `path.normalize` on an absolute posix path. -/
def pathNormalizeAbs (p : List Char) : List Char :=
  '/' :: List.intercalate "/".data ((p.splitOn '/').foldl normStack [])

/-- Model of `path.resolve(base, p)` for an absolute posix `base`. -/
def pathResolve (base p : List Char) : List Char :=
  if p.head? = some '/' then pathNormalizeAbs p
  else pathNormalizeAbs (base ++ "/".data ++ p)

/-- Model of `path.dirname` on a module-id-like string. -/
def pathDirname (p : List Char) : List Char :=
  let parts := p.splitOn '/'
  if parts.length ≤ 1 then ".".data
  else List.intercalate "/".data parts.dropLast

def joinStack (acc : List (List Char)) (c : List Char) : List (List Char) :=
  if c = [] ∨ c = ".".data then acc
  else if c = "..".data then
    match acc.getLast? with
    | some t => if t = "..".data then acc ++ [c] else acc.dropLast
    | none => [c]
  else acc ++ [c]

/-- Model of `path.join(a, b)` (posix). -/
def pathJoin (a b : List Char) : List Char :=
  List.intercalate "/".data ((a.splitOn '/' ++ b.splitOn '/').foldl joinStack [])

/-- The replacer `writeDeclaration` passes to `processTree`
(src/index.ts lines 247-267): rewrite relative external-module
references into `require('<id>')`, delete bare `declare` keywords, and
rewrite relative module-specifier string literals of import/export
declarations into quoted module ids. -/
def moduleReplacer (sep : Char) (mid : List Char) (node : Node) :
    Option (List Char) :=
  if node.kind = SKind.externalModuleReference then
    match node.children.head? with
    | some expr =>
      if expr.litText.head? = some '.' then
        some (" require(\x27".data
          ++ filenameToMid sep (pathJoin (pathDirname mid) expr.litText)
          ++ "\x27)".data)
      else none
    | none => none
  else if node.kind = SKind.declareKeyword then some []
  else if node.kind = SKind.stringLiteral ∧
      (node.parentKind = SKind.exportDeclaration ∨
        node.parentKind = SKind.importDeclaration) then
    if node.litText.head? = some '.' then
      some (" \x27".data
        ++ filenameToMid sep (pathJoin (pathDirname mid) node.litText)
        ++ "\x27".data)
    else none
  else none

/-- Function `writeDeclaration` from src/index.ts lines 240-275, as the text it
appends to the output stream: external modules are wrapped in a
`declare module '<id>' { ... }` block with the rewritten, re-indented
body; ambient files are written verbatim. -/
def writeDeclaration (sep : Char) (name baseDir eol indent : List Char)
    (declarationFile : SourceFile) : List Char :=
  let mid := sourceModuleId sep name baseDir declarationFile.fileName
  if isExternalModule declarationFile then
    (eol ++ "declare module \x27".data ++ mid ++ "\x27 \x7b".data ++ eol ++ indent)
    ++ reindent eol indent (processTree declarationFile (moduleReplacer sep mid))
    ++ (eol ++ "\x7d".data ++ eol)
  else
    declarationFile.text

/-- C9.  A declaration file classified as not-external is appended to
the output byte-for-byte: no module wrapper, no path rewriting, no
re-indentation.  (The embedding is pure, so the file value is never
mutated.) -/
theorem writeDeclaration_ambient_verbatim (sep : Char)
    (name baseDir eol indent : List Char) (sf : SourceFile)
    (h : isExternalModule sf = false) :
    writeDeclaration sep name baseDir eol indent sf = sf.text := by
  unfold writeDeclaration
  rw [if_neg]
  rw [h]
  exact Bool.false_ne_true

def sampleSfC9 : SourceFile :=
  ⟨"/b/a.d.ts".data, "declare function f(): void;".data,
    .mk 0 27 .sourceFileKind 0 .other .other []
      [.mk 0 27 .interfaceDeclaration 0 .sourceFileKind .other [] []]⟩

/-- Witness for C9 on a concrete ambient declaration file. -/
theorem writeDeclaration_ambient_verbatim_witness :
    isExternalModule sampleSfC9 = false ∧
      writeDeclaration '/' "pkg".data "/b".data "\n".data "\t".data sampleSfC9
        = sampleSfC9.text := by
  refine ⟨by decide, ?_⟩
  exact writeDeclaration_ambient_verbatim '/' "pkg".data "/b".data
    "\n".data "\t".data sampleSfC9 (by decide)

/-- A compiler diagnostic as `getError` consumes it: the file name, the
`(line, character)` pair `getLineAndCharacterOfPosition` computes for
`diagnostic.start` (an external compiler service), the error code, and
the message text. -/
structure Diagnostic : Type where
  fileName : List Char
  line : Nat
  character : Nat
  code : Nat
  messageText : List Char

def natChars (n : Nat) : List Char := (Nat.repr n).data

/-- The text `getError` appends per diagnostic (src/index.ts
lines 39-45). -/
def diagSegment (d : Diagnostic) : List Char :=
  "\n".data ++ d.fileName ++ "(".data ++ natChars (d.line + 1) ++ ",".data
    ++ natChars (d.character + 1) ++ "): error TS".data ++ natChars d.code
    ++ ": ".data ++ d.messageText

/-- Function `getError` from src/index.ts lines 36-50: the message of the
`EmitterError` it constructs. -/
def getError (diagnostics : List Diagnostic) : List Char :=
  diagnostics.foldl (fun message d => message ++ diagSegment d)
    "Declaration generation failed".data

/-- Predicate: `seg` occurs contiguously inside `l`. -/
def segIn (seg l : List Char) : Prop := ∃ a b, l = a ++ seg ++ b

/-- One source file as the compiler collaborator reports it to the
loop: the parsed file plus the outcome of asking the collaborator to
emit it (`program.emit` result and the three per-file diagnostic
queries), with `emitted` the `.d.ts` outputs the `writeFile` callback
receives, already parsed by `ts.createSourceFile`. -/
structure ProgFile : Type where
  sf : SourceFile
  emitSkipped : Bool
  emitDiagnostics : List Diagnostic
  emitted : List SourceFile
  semanticDiagnostics : List Diagnostic
  syntacticDiagnostics : List Diagnostic
  declarationDiagnostics : List Diagnostic

/-- The diagnostics aggregated at src/index.ts lines 207-212. -/
def fileDiagnostics (f : ProgFile) : List Diagnostic :=
  f.emitDiagnostics ++ f.semanticDiagnostics ++ f.syntacticDiagnostics
    ++ f.declarationDiagnostics

/-- The `OutputSink` and progress channel of one run: everything
written so far, the messages sent so far, and the first rejection. -/
structure GenState : Type where
  out : List Char
  msgs : List (List Char)
  err : Option (List Char)
deriving DecidableEq

/-- The per-run parameters the loop body closes over. -/
structure GenParams : Type where
  sep : Char
  name : List Char
  baseDir : List Char
  eol : List Char
  indent : List Char
  excludesIds : List (List Char)

/-- The keys of `excludesMap` (src/index.ts lines 109-112):
`filenameToMid(path.resolve(baseDir, filename))` for each entry of
`options.excludes`.  No glob expansion is performed. -/
def excludesIds (sep : Char) (baseDir : List Char)
    (excludes : List (List Char)) : List (List Char) :=
  excludes.map fun f => filenameToMid sep (pathResolve baseDir f)

/-- The skip test at src/index.ts lines 189-191:
`pathUtil.normalize(sourceFile.fileName).indexOf(baseDir) === 0`. -/
def underBase (P : GenParams) (f : ProgFile) : Bool :=
  P.baseDir.isPrefixOf (pathNormalizeAbs f.sf.fileName)

/-- The skip test at src/index.ts lines 193-195:
`excludesMap[filenameToMid(pathUtil.normalize(sourceFile.fileName))]`. -/
def excludedFile (P : GenParams) (f : ProgFile) : Bool :=
  P.excludesIds.contains (filenameToMid P.sep (pathNormalizeAbs f.sf.fileName))

/-- The failure test at src/index.ts line 206. -/
def fileFails (f : ProgFile) : Bool :=
  f.emitSkipped || !f.emitDiagnostics.isEmpty

/-- The `writeFile` callback output (src/index.ts lines 160-167): every
emitted `.d.ts` file goes through `writeDeclaration`; other emitted
files are ignored. -/
def emittedChunks (P : GenParams) (emitted : List SourceFile) : List Char :=
  (emitted.filter fun e => isDtsName e.fileName).foldl
    (fun acc e => acc ++ writeDeclaration P.sep P.name P.baseDir P.eol P.indent e)
    []

/-- The `program.getSourceFiles().some(...)` loop of `generate`
(src/index.ts lines 186-216): skip files outside `baseDir`, skip
excluded files, send a `Processing` message, write declaration files
directly, otherwise emit through the compiler and reject on the first
failure (the callback returns `true`, stopping the iteration). -/
def genLoop (P : GenParams) : List ProgFile → GenState → GenState
  | [], st => st
  | f :: fs, st =>
    if underBase P f = false then genLoop P fs st
    else if excludedFile P f = true then genLoop P fs st
    else
      let st1 : GenState :=
        ⟨st.out, st.msgs ++ ["Processing ".data ++ f.sf.fileName], st.err⟩
      if isDtsName f.sf.fileName then
        genLoop P fs
          ⟨st1.out ++ writeDeclaration P.sep P.name P.baseDir P.eol P.indent f.sf,
            st1.msgs, st1.err⟩
      else
        let st2 : GenState :=
          ⟨st1.out ++ emittedChunks P f.emitted, st1.msgs, st1.err⟩
        if fileFails f then
          ⟨st2.out, st2.msgs, some (getError (fileDiagnostics f))⟩
        else genLoop P fs st2

/-- The bundler's options record (src/index.ts lines 8-20), restricted
to the fields the core consumes; an absent `excludes`/`externs` is the
empty list. -/
structure Options : Type where
  baseDir : List Char
  excludes : List (List Char)
  externs : List (List Char)
  eol : Option (List Char)
  indent : Option (List Char)
  main : Option (List Char)
  name : List Char

/-- Resolution `options.eol || os.EOL` (src/index.ts line 98; JS truthiness makes
an empty string fall back to the platform default). -/
def resolvedEol (optsEol : Option (List Char)) (osEOL : List Char) : List Char :=
  match optsEol with
  | some e => if e = [] then osEOL else e
  | none => osEOL

/-- Resolution `options.indent === undefined ? '\t' : options.indent`
(src/index.ts line 100). -/
def resolvedIndent (optsIndent : Option (List Char)) : List Char :=
  match optsIndent with
  | none => "\t".data
  | some i => i

/-- The fixed banner written first (src/index.ts lines 173-177). -/
def headerText (eol : List Char) : List Char :=
  "//".data ++ eol
    ++ "// Auto-generated by dts-generator (https://github.com/enlight/dts-generator/)".data
    ++ eol ++ "//".data ++ eol ++ eol

/-- One extern reference line (src/index.ts line 182). -/
def refLine (p : List Char) : List Char :=
  "/// <reference path=\"".data ++ p ++ "\" />".data

def externMsg (p : List Char) : List Char :=
  "Writing external dependency ".data ++ p

/-- The alias block written when `options.main` is set (src/index.ts
lines 218-223): eol, `declare module '<name>' {` line, an indented
`export * from '<main>';` line, and a closing brace line. -/
def aliasBlock (eol indent name m : List Char) : List Char :=
  (eol ++ "declare module \x27".data ++ name ++ "\x27 \x7b".data ++ eol)
    ++ (indent ++ "export * from \x27".data ++ m ++ "\x27;".data ++ eol)
    ++ ("\x7d".data ++ eol)

def aliasMsg (name m : List Char) : List Char :=
  "Aliased main module ".data ++ name ++ " to ".data ++ m

/-- Function `generate` from src/index.ts lines 96-226, for a run without a
`tsconfig.json` in `baseDir` (the claims under verification all live
outside the tsconfig branch): resolve the options, write the banner,
the extern reference lines, run the source-file loop, and append the
main alias block when `options.main` is truthy.  `out` is the
concatenation of everything written to the stream, `msgs` the
`sendMessage` notifications in order, `err` the first rejection. -/
def generatePreMain (opts : Options) (osEOL : List Char) (sep : Char)
    (files : List ProgFile) : GenState :=
  let baseDir := pathNormalizeAbs opts.baseDir
  let eol := resolvedEol opts.eol osEOL
  let indent := resolvedIndent opts.indent
  let P : GenParams := ⟨sep, opts.name, baseDir, eol, indent,
    excludesIds sep baseDir opts.excludes⟩
  let st0 : GenState := ⟨headerText eol, [], none⟩
  let st1 := opts.externs.foldl
    (fun st p => ⟨st.out ++ refLine p ++ eol, st.msgs ++ [externMsg p], st.err⟩)
    st0
  genLoop P files st1

def generateModel (opts : Options) (osEOL : List Char) (sep : Char)
    (files : List ProgFile) : GenState :=
  let st2 := generatePreMain opts osEOL sep files
  match opts.main with
  | some m =>
    if m = [] then st2
    else ⟨st2.out ++ aliasBlock (resolvedEol opts.eol osEOL)
        (resolvedIndent opts.indent) opts.name m,
      st2.msgs ++ [aliasMsg opts.name m], st2.err⟩
  | none => st2

theorem foldl_append_eq (f : Diagnostic → List Char) :
    ∀ (l : List Diagnostic) (init : List Char),
      l.foldl (fun m d => m ++ f d) init = init ++ (l.map f).flatten := by
  intro l
  induction l with
  | nil => intro init; simp
  | cons d ds ih =>
    intro init
    rw [List.foldl_cons, ih, List.map_cons, List.flatten_cons, List.append_assoc]

theorem flatten_decomp {α : Type} (x : List α) :
    ∀ (l : List (List α)), x ∈ l → ∃ a b, l.flatten = a ++ x ++ b := by
  intro l
  induction l with
  | nil => intro h; exact absurd h (List.not_mem_nil x)
  | cons y ys ih =>
    intro h
    rcases List.mem_cons.mp h with h | h
    · exact ⟨[], ys.flatten, by rw [h, List.flatten_cons, List.nil_append]⟩
    · rcases ih h with ⟨a, b, hab⟩
      exact ⟨y ++ a, b, by rw [List.flatten_cons, hab]; simp [List.append_assoc]⟩

/-- The location part `<file>(<line+1>,<character+1>)` that the
aggregated message contains for a diagnostic. -/
def diagLocation (d : Diagnostic) : List Char :=
  d.fileName ++ "(".data ++ natChars (d.line + 1) ++ ",".data
    ++ natChars (d.character + 1) ++ ")".data

theorem diagSegment_decomp (d : Diagnostic) :
    diagSegment d = "\n".data ++ diagLocation d
      ++ (": error TS".data ++ natChars d.code ++ ": ".data ++ d.messageText) := by
  unfold diagSegment diagLocation
  have h : "): error TS".data = ")".data ++ ": error TS".data := rfl
  rw [h]
  simp [List.append_assoc]

theorem getError_contains (diags : List Diagnostic) (d : Diagnostic)
    (hd : d ∈ diags) : segIn (diagLocation d) (getError diags) := by
  unfold getError
  rw [foldl_append_eq]
  rcases flatten_decomp (diagSegment d) (diags.map diagSegment)
    (List.mem_map_of_mem diagSegment hd) with ⟨a, b, hab⟩
  rw [hab, diagSegment_decomp]
  refine ⟨"Declaration generation failed".data ++ a ++ "\n".data,
    (": error TS".data ++ natChars d.code ++ ": ".data ++ d.messageText) ++ b, ?_⟩
  simp [List.append_assoc]

/-- A file at which the loop stops: under `baseDir`, not excluded, not
already a declaration file, and the compiler reports emit failure or
diagnostics. -/
def fileStops (P : GenParams) (f : ProgFile) : Bool :=
  underBase P f && !excludedFile P f && !isDtsName f.sf.fileName && fileFails f

/-- The state transformation of one non-stopping loop iteration. -/
def stepState (P : GenParams) (g : ProgFile) (st : GenState) : GenState :=
  if underBase P g = false then st
  else if excludedFile P g = true then st
  else if isDtsName g.sf.fileName then
    ⟨st.out ++ writeDeclaration P.sep P.name P.baseDir P.eol P.indent g.sf,
      st.msgs ++ ["Processing ".data ++ g.sf.fileName], st.err⟩
  else
    ⟨st.out ++ emittedChunks P g.emitted,
      st.msgs ++ ["Processing ".data ++ g.sf.fileName], st.err⟩

theorem genLoop_cont (P : GenParams) (g : ProgFile) (gs : List ProgFile)
    (st : GenState) (h : fileStops P g = false) :
    genLoop P (g :: gs) st = genLoop P gs (stepState P g st) := by
  rw [genLoop]
  unfold stepState
  by_cases hb : underBase P g = false
  · rw [if_pos hb, if_pos hb]
  · rw [if_neg hb, if_neg hb]
    by_cases hx : excludedFile P g = true
    · rw [if_pos hx, if_pos hx]
    · rw [if_neg hx, if_neg hx]
      by_cases hd : isDtsName g.sf.fileName = true
      · rw [if_pos hd, if_pos hd]
      · rw [if_neg hd, if_neg hd]
        have hb' : underBase P g = true := by
          revert hb; cases underBase P g <;> simp
        have hx' : excludedFile P g = false := by
          revert hx; cases excludedFile P g <;> simp
        have hd' : isDtsName g.sf.fileName = false := by
          revert hd; cases isDtsName g.sf.fileName <;> simp
        have hff : fileFails g = false := by
          unfold fileStops at h
          rw [hb', hx', hd'] at h
          simpa using h
        rw [if_neg (by rw [hff]; simp)]

theorem stepState_err (P : GenParams) (g : ProgFile) (st : GenState) :
    (stepState P g st).err = st.err := by
  unfold stepState
  by_cases hb : underBase P g = false
  · rw [if_pos hb]
  · rw [if_neg hb]
    by_cases hx : excludedFile P g = true
    · rw [if_pos hx]
    · rw [if_neg hx]
      by_cases hd : isDtsName g.sf.fileName = true
      · rw [if_pos hd]
      · rw [if_neg hd]

theorem genLoop_stop (P : GenParams) (f : ProgFile) (rest : List ProgFile)
    (st : GenState) (h : fileStops P f = true) :
    genLoop P (f :: rest) st
      = ⟨st.out ++ emittedChunks P f.emitted,
          st.msgs ++ ["Processing ".data ++ f.sf.fileName],
          some (getError (fileDiagnostics f))⟩ := by
  unfold fileStops at h
  simp only [Bool.and_eq_true, Bool.not_eq_true'] at h
  obtain ⟨⟨⟨hb, hx⟩, hd⟩, hf⟩ := h
  rw [genLoop]
  rw [if_neg (by rw [hb]; simp), if_neg (by rw [hx]; simp),
    if_neg (by rw [hd]; simp), if_pos hf]

/-- C5.  When the compiler collaborator reports emit failure or
diagnostics for a file, the loop stops at that file (the result does
not depend on the remaining files), the run's rejection value is the
single aggregated `getError` message over that file's diagnostics, and
that message contains `<path>(<line>,<column>)` for each aggregated
diagnostic. -/
theorem generate_fail_fast (P : GenParams) (pre : List ProgFile)
    (f : ProgFile) (rest : List ProgFile) (st : GenState)
    (hpre : ∀ g ∈ pre, fileStops P g = false)
    (hf : fileStops P f = true) :
    genLoop P (pre ++ f :: rest) st = genLoop P (pre ++ [f]) st ∧
      (genLoop P (pre ++ f :: rest) st).err
        = some (getError (fileDiagnostics f)) ∧
      ∀ d ∈ fileDiagnostics f,
        segIn (diagLocation d) (getError (fileDiagnostics f)) := by
  refine ⟨?_, ?_, fun d hd => getError_contains _ d hd⟩
  · induction pre generalizing st with
    | nil =>
      rw [List.nil_append, List.nil_append,
        genLoop_stop P f rest st hf, genLoop_stop P f [] st hf]
    | cons g gs ih =>
      have hg : fileStops P g = false := hpre g (List.mem_cons_self _ _)
      rw [List.cons_append, List.cons_append,
        genLoop_cont P g _ st hg, genLoop_cont P g _ st hg]
      exact ih (stepState P g st) (fun x hx => hpre x (List.mem_cons_of_mem _ hx))
  · induction pre generalizing st with
    | nil =>
      rw [List.nil_append, genLoop_stop P f rest st hf]
    | cons g gs ih =>
      have hg : fileStops P g = false := hpre g (List.mem_cons_self _ _)
      rw [List.cons_append, genLoop_cont P g _ st hg]
      exact ih (stepState P g st) (fun x hx => hpre x (List.mem_cons_of_mem _ hx))

/-- C7.  Whenever `options.main` is set (truthy), the output artifact
ends with the alias block — an eol, the `declare module '<name>' {`
line, one indent unit followed by `export * from '<main>';`, and a
closing brace line — written after all module blocks, and the last
progress notification is the `Aliased main module ...` message. -/
theorem mainAlias_suffix (opts : Options) (osEOL : List Char) (sep : Char)
    (files : List ProgFile) (m : List Char)
    (hm : opts.main = some m) (hm2 : m ≠ []) :
    aliasBlock (resolvedEol opts.eol osEOL) (resolvedIndent opts.indent)
        opts.name m <:+ (generateModel opts osEOL sep files).out ∧
      (generateModel opts osEOL sep files).msgs.getLast?
        = some (aliasMsg opts.name m) := by
  simp only [generateModel, hm]
  rw [if_neg hm2]
  exact ⟨⟨(generatePreMain opts osEOL sep files).out, rfl⟩,
    List.getLast?_concat _⟩

def optsC7 : Options :=
  ⟨"/base".data, [], [], some "\n".data, none, some "pkg/b".data, "pkg".data⟩

/-- Witness for C7: `main = 'pkg/b'`, `name = 'pkg'`, no input files. -/
theorem mainAlias_suffix_witness :
    optsC7.main = some "pkg/b".data ∧
      (aliasBlock (resolvedEol optsC7.eol "\n".data)
          (resolvedIndent optsC7.indent) optsC7.name "pkg/b".data
          <:+ (generateModel optsC7 "\n".data '/' []).out ∧
        (generateModel optsC7 "\n".data '/' []).msgs.getLast?
          = some (aliasMsg optsC7.name "pkg/b".data)) := by
  exact ⟨rfl, mainAlias_suffix optsC7 "\n".data '/' [] "pkg/b".data rfl
    (by decide)⟩

def samplePC5 : GenParams :=
  ⟨'/', "pkg".data, "/base".data, "\n".data, "\t".data, []⟩

def sampleFailFile : ProgFile :=
  ⟨⟨"/base/bad.ts".data, "x".data, .mk 0 1 .sourceFileKind 0 .other .other [] []⟩,
    true, [⟨"/base/bad.ts".data, 0, 4, 1005, "expected".data⟩], [], [], [], []⟩

def sampleOkFile : ProgFile :=
  ⟨⟨"/base/ok.d.ts".data, "declare var a: number;".data,
      .mk 0 22 .sourceFileKind 0 .other .other []
        [.mk 0 22 .interfaceDeclaration 0 .sourceFileKind .other [] []]⟩,
    false, [], [], [], [], []⟩

/-- Witness for C5: a failing file followed by a healthy one — the
healthy one is never processed and the rejection carries the
aggregated message. -/
theorem generate_fail_fast_witness :
    fileStops samplePC5 sampleFailFile = true ∧
      (genLoop samplePC5 ([] ++ sampleFailFile :: [sampleOkFile]) ⟨[], [], none⟩
          = genLoop samplePC5 ([] ++ [sampleFailFile]) ⟨[], [], none⟩ ∧
        (genLoop samplePC5 ([] ++ sampleFailFile :: [sampleOkFile])
            ⟨[], [], none⟩).err
          = some (getError (fileDiagnostics sampleFailFile)) ∧
        ∀ d ∈ fileDiagnostics sampleFailFile,
          segIn (diagLocation d) (getError (fileDiagnostics sampleFailFile))) := by
  refine ⟨by decide, ?_⟩
  exact generate_fail_fast samplePC5 [] sampleFailFile [sampleOkFile]
    ⟨[], [], none⟩ (fun g hg => absurd hg (List.not_mem_nil g)) (by decide)

/-- Modelled from the spec: the glob-based exclusion matching of the
external glob collaborator ("build `excludesMap` by glob-matching each
candidate file's base-relative path against `options.excludes`"),
restricted to literal characters and the `*` wildcard, which matches
any run of non-separator characters.  The matcher itself is not part
of src/index.ts — the code there performs no glob matching at all. -/
def globMatchFuel : Nat → List Char → List Char → Bool
  | 0, _, _ => false
  | _ + 1, [], [] => true
  | _ + 1, [], _ :: _ => false
  | fuel + 1, '*' :: ps, [] => globMatchFuel fuel ps []
  | fuel + 1, '*' :: ps, c :: s =>
    globMatchFuel fuel ps (c :: s) || (c != '/' && globMatchFuel fuel ('*' :: ps) s)
  | _ + 1, _ :: _, [] => false
  | fuel + 1, p :: ps, c :: s => p == c && globMatchFuel fuel ps s

def globMatch (p s : List Char) : Bool :=
  globMatchFuel (p.length + s.length + 1) p s

def optsC6 : Options :=
  ⟨"/base".data, ["internal/*.d.ts".data], [], some "\n".data,
    some "\t".data, none, "pkg".data⟩

def fileC6 : ProgFile :=
  ⟨⟨"/base/internal/secret.d.ts".data, "declare var secretX: number;".data,
      .mk 0 28 .sourceFileKind 0 .other .other []
        [.mk 0 28 .interfaceDeclaration 0 .sourceFileKind .other [] []]⟩,
    false, [], [], [], [], []⟩

/-- C6 counterexample.  With `excludes = ['internal/*.d.ts']` and an
input file at `internal/secret.d.ts`: the file's base-relative path
*does* match the glob pattern, yet the run processes the file anyway —
its text appears in the output (a block is emitted) and no message of
the progress channel starts with `Excluding` (the code sends none;
`excludesMap` only holds the literal resolved string
`/base/internal/*.d.ts`, which never equals the file's path). -/
theorem excludes_glob_counterexample :
    globMatch "internal/*.d.ts".data "internal/secret.d.ts".data = true ∧
      ((generateModel optsC6 "\n".data '/' [fileC6]).msgs.all
        fun msg => !("Excluding".data.isPrefixOf msg)) = true ∧
      (generateModel optsC6 "\n".data '/' [fileC6]).msgs
        = ["Processing ".data ++ fileC6.sf.fileName] ∧
      segIn fileC6.sf.text (generateModel optsC6 "\n".data '/' [fileC6]).out := by
  refine ⟨by decide, by decide, by decide, ?_⟩
  exact ⟨headerText "\n".data, [], by decide⟩

/-- C6 (amended).  In src/index.ts the excludes are not interpreted as
globs and no `Excluding` notification exists: `excludesMap` holds the
slash-normalized *resolved* exclude entries, and a source file whose
slash-normalized path equals such a key is skipped entirely and
silently — the loop emits no module block for it and sends no progress
message for it (the skipped iteration leaves the state untouched). -/
theorem excludes_exact_skip (P : GenParams) (f : ProgFile)
    (rest : List ProgFile) (st : GenState)
    (h : excludedFile P f = true) :
    genLoop P (f :: rest) st = genLoop P rest st := by
  rw [genLoop]
  by_cases hb : underBase P f = false
  · rw [if_pos hb]
  · rw [if_neg hb, if_pos h]

def samplePC6 : GenParams :=
  ⟨'/', "pkg".data, "/base".data, "\n".data, "\t".data,
    excludesIds '/' "/base".data ["internal/secret.d.ts".data]⟩

/-- Witness for the amended C6: a file whose resolved path exactly
equals a resolved excludes entry is skipped without any trace. -/
theorem excludes_exact_skip_witness :
    excludedFile samplePC6 fileC6 = true ∧
      genLoop samplePC6 [fileC6] ⟨[], [], none⟩
        = genLoop samplePC6 [] ⟨[], [], none⟩ := by
  refine ⟨by decide, ?_⟩
  exact excludes_exact_skip samplePC6 fileC6 [] ⟨[], [], none⟩ (by decide)

end DtsGen
